import Mathlib

/-!
# Verification of FLTK core contracts

Shallow embedding of the parts of the FLTK widget toolkit that the
specification's claims are about:

* the default (unimplemented-operation) methods of `Fl_System_Driver`
  (`src/unnamed/part_003`, the header `Fl_System_Driver.H`);
* the cross-thread awake ring buffer (declared in `Fl_System_Driver.H`;
  its body is not part of the excerpted sources, so it is modelled from
  the specification);
* the repeating-timer schedule, clip stack and group resize policy
  (modelled from the specification; the implementing translation units
  are not part of the excerpted sources);
* the SVG file surface close protocol (`src/FL/Fl_SVG_File_Surface.H`);
* the widget-browser item model, `copy_trunc`, and the fold/unfold
  handling of `Node_Browser::handle`
  (`src/fluid/widgets/Node_Browser.cxx`).

Machine integers are embedded as `Int`/`Nat`; C strings are lists of
bytes (the bytes strictly before the terminating NUL); nullable pointers
are `Option`.
-/

namespace Fltk

/-! ## Fl_System_Driver default operations

Each default method body of `Fl_System_Driver` (declared inline in
`Fl_System_Driver.H`) is embedded as a Lean function ignoring its
arguments, exactly as the C++ default ignores them.  A `char *`/object
return is `Option` (with `none` embedding `NULL`), an `int` return is
`Int`, and `home_directory_name` returns a string. -/

namespace Fl_System_Driver

/-- `virtual char *getenv(const char*) {return NULL;}` -/
def getenv (_name : String) : Option String := none

/-- `virtual int putenv(const char *) {return -1;}` -/
def putenv (_s : String) : Int := -1

/-- `virtual int open(const char*, int, int) {return -1;}` -/
def «open» (_f : String) (_oflags _pmode : Int) : Int := -1

/-- `virtual char *strdup(const char *) {return NULL;}` -/
def strdup (_s : String) : Option String := none

/-- `virtual int open_ext(const char* f, int, int oflags, int pmode) { return this->open(f, oflags, pmode); }` -/
def open_ext (f : String) (_binary : Int) (oflags pmode : Int) : Int :=
  «open» f oflags pmode

/-- `virtual int system(const char*) {return -1;}` -/
def system (_cmd : String) : Int := -1

/-- `virtual int execvp(const char *, char *const *) {return -1;}` -/
def execvp (_file : String) (_argv : List String) : Int := -1

/-- `virtual int chmod(const char*, int) {return -1;}` -/
def chmod (_f : String) (_mode : Int) : Int := -1

/-- `virtual int access(const char*, int) { return -1;}` -/
def access (_f : String) (_mode : Int) : Int := -1

/-- `virtual int flstat(const char*, struct stat *) { return -1;}` -/
def flstat (_f : String) : Int := -1

/-- `virtual char *getcwd(char*, int) {return NULL;}` -/
def getcwd (_b : String) (_l : Int) : Option String := none

/-- `virtual int chdir(const char*) {return -1;}` -/
def chdir (_d : String) : Int := -1

/-- `virtual int unlink(const char*) {return -1;}` -/
def unlink (_f : String) : Int := -1

/-- `virtual int mkdir(const char*, int) {return -1;}` -/
def mkdir (_f : String) (_mode : Int) : Int := -1

/-- `virtual int rmdir(const char*) {return -1;}` -/
def rmdir (_d : String) : Int := -1

/-- `virtual int rename(const char*, const char *) {return -1;}` -/
def rename (_f _n : String) : Int := -1

/-- `virtual int filename_list(...) { ...; return -1; }` -/
def filename_list (_d : String) : Int := -1

/-- `virtual const char *getpwnam(const char *) {return NULL;}` -/
def getpwnam (_user : String) : Option String := none

/-- `virtual char *preference_rootnode(...) {return NULL;}` -/
def preference_rootnode (_vendor _application : String) : Option String := none

/-- `virtual void *load(const char *) {return NULL;}` -/
def load (_lib : String) : Option Unit := none

/-- `virtual const char *home_directory_name() { return ""; }` -/
def home_directory_name : String := ""

/-- `virtual int close_fd(int) {return -1;}` -/
def close_fd (_fd : Int) : Int := -1

end Fl_System_Driver

/-! ## Awake ring buffer

`Fl_System_Driver.H` only declares `push_awake_handler`,
`pop_awake_handler` and the ring state (`awake_ring_`, `awake_data_`,
`awake_ring_size_`, `awake_ring_head_`, `awake_ring_tail_`); the
implementing translation unit is not among the excerpted sources.  The
ring is therefore modelled from the specification: a fixed-capacity
FIFO of `(handler, data)` entries whose overflow policy silently drops
the oldest unconsumed entry. -/

/-- An awake-queue entry: an `(Fl_Awake_Handler, void*)` pair, embedded
abstractly as a pair of natural-number identities (the handler pointer
and the data pointer). -/
structure AwakeEntry where
  handler : Nat
  data : Nat
deriving DecidableEq, Repr

/-- State of the awake ring: the queue of unconsumed entries in FIFO
order (head = oldest) and the fixed capacity. -/
structure AwakeRing where
  queue : List AwakeEntry
  capacity : Nat
deriving DecidableEq, Repr

/-- Modelled from the spec: `Fl_System_Driver::push_awake_handler`
(body not among the excerpted sources).  Enqueue an entry from any
thread; when the ring is full the oldest unconsumed entry is silently
dropped (documented data-loss policy).  Returns the new ring state and
`true` when the overflow policy fired. -/
def push_awake_handler (r : AwakeRing) (e : AwakeEntry) : AwakeRing × Bool :=
  if r.queue.length < r.capacity then
    ({ r with queue := r.queue ++ [e] }, false)
  else
    ({ r with queue := r.queue.tail ++ [e] }, true)

/-- Modelled from the spec: `Fl_System_Driver::pop_awake_handler`
(body not among the excerpted sources).  The single consumer (the event
loop thread) dequeues the oldest entry, if any. -/
def pop_awake_handler (r : AwakeRing) : Option AwakeEntry × AwakeRing :=
  (r.queue.head?, { r with queue := r.queue.tail })

/-- Push a whole list of entries in order, counting how often the
overflow policy fired. -/
def pushAll (r : AwakeRing) : List AwakeEntry → AwakeRing × Nat
  | [] => (r, 0)
  | e :: es =>
      let (r', ov) := push_awake_handler r e
      let (r'', n) := pushAll r' es
      (r'', (if ov then 1 else 0) + n)

/-- Drain the ring on the loop thread: repeatedly call
`pop_awake_handler` until it yields no entry, returning the entries in
the order their handlers are invoked. -/
def drainAll (r : AwakeRing) : List AwakeEntry :=
  match h : (pop_awake_handler r).1 with
  | none => []
  | some e => e :: drainAll (pop_awake_handler r).2
termination_by r.queue.length
decreasing_by
  simp only [pop_awake_handler] at h ⊢
  cases hq : r.queue with
  | nil => simp [hq] at h
  | cons a as => simp [hq]

/-! ## Repeating timers

The timer implementation is not among the excerpted sources; the
schedule is modelled from the specification: a repeating timer's next
deadline is computed relative to its *original* schedule time (by
adding the period to the previous deadline), not to the actual fire
time.  Times are in abstract clock ticks (`Nat`). -/

/-- Modelled from the spec: after a repeating timer with the given
current deadline fires, `repeat_timeout` re-arms it with the next
deadline computed from the previous deadline (hence from the original
schedule time), not from the wall-clock fire time. -/
def repeat_timeout (deadline period _fireTime : Nat) : Nat :=
  deadline + period

/-- The deadline of the `k`-th firing of a repeating timer originally
scheduled at `s` with period `p`, obtained by iterating
`repeat_timeout` (the fire times do not enter the computation). -/
def timerDeadline (s p : Nat) (fire : Nat → Nat) : Nat → Nat
  | 0 => s
  | k + 1 => repeat_timeout (timerDeadline s p fire k) p (fire k)

/-! ## Clip stack

The graphics drivers' clip stacks are not among the excerpted sources;
the stack is modelled from the specification: `push_clip` pushes the
intersection of the new rectangle with the current clip, `pop_clip`
restores the previous region; the two form a strictly nested scoped
region. -/

/-- A clip rectangle. -/
structure Rect where
  x : Int
  y : Int
  w : Int
  h : Int
deriving DecidableEq, Repr

/-- A clip region: `none` embeds "no clipping". -/
def Region := Option Rect

/-- Intersection of two clip rectangles. -/
def Rect.inter (a b : Rect) : Rect :=
  let x := max a.x b.x
  let y := max a.y b.y
  { x := x, y := y
    w := min (a.x + a.w) (b.x + b.w) - x
    h := min (a.y + a.h) (b.y + b.h) - y }

/-- The clip state of a graphics driver: a stack of regions, the head
being the region currently in effect. -/
def ClipStack := List Region

/-- The clip region currently in effect (`none` when nothing was ever
pushed, i.e. no clipping). -/
def currentClip (s : ClipStack) : Region :=
  match s with
  | [] => none
  | r :: _ => r

/-- Modelled from the spec: `push_clip r` restricts drawing to the
intersection of `r` with the current clip and pushes that region. -/
def push_clip (r : Rect) (s : ClipStack) : ClipStack :=
  (match currentClip s with
   | none => some r
   | some c => some (c.inter r)) :: s

/-- Modelled from the spec: `pop_clip` restores the clip region that
was in effect before the matching `push_clip`. -/
def pop_clip (s : ClipStack) : ClipStack :=
  s.tail

/-- A clip operation issued by drawing code. -/
inductive ClipOp where
  | pushOp (r : Rect)
  | popOp
deriving DecidableEq, Repr

/-- Apply one clip operation to the clip stack. -/
def applyOp (s : ClipStack) : ClipOp → ClipStack
  | ClipOp.pushOp r => push_clip r s
  | ClipOp.popOp => pop_clip s

/-- Apply a sequence of clip operations in order. -/
def applyOps (s : ClipStack) : List ClipOp → ClipStack
  | [] => s
  | o :: os => applyOps (applyOp s o) os

/-- The strictly nested (balanced) sequences of push/pop calls: empty,
or a push, a nested inner sequence, the matching pop, then a further
nested sequence. -/
inductive Nested : List ClipOp → Prop where
  | nil : Nested []
  | scope (r : Rect) (inner rest : List ClipOp) :
      Nested inner → Nested rest →
      Nested (ClipOp.pushOp r :: inner ++ ClipOp.popOp :: rest)

/-! ## Group resize policy

`Fl_Group::resize` is not among the excerpted sources; the horizontal
resize policy is modelled from the specification: each child has a
per-axis policy; a child anchored to the left edge keeps its `x`, a
child anchored to the right edge keeps a constant right margin. -/

/-- Horizontal anchor policy of a child widget. -/
inductive HAnchor where
  | left
  | right
deriving DecidableEq, Repr

/-- A child widget of a group: horizontal geometry and anchor policy
(the claims only exercise the horizontal axis). -/
structure Child where
  x : Int
  w : Int
  anchor : HAnchor
deriving DecidableEq, Repr

/-- Modelled from the spec: `Fl_Group::resize` with a new width
repositions each child according to its per-axis policy, computed once
from the old and new group widths: a left-anchored child is unchanged,
a right-anchored child moves with the right edge. -/
def resizeChild (oldW newW : Int) (c : Child) : Child :=
  match c.anchor with
  | HAnchor.left => c
  | HAnchor.right => { c with x := c.x + (newW - oldW) }

/-- Resizing a group maps the resize policy over all children. -/
def resizeGroup (oldW newW : Int) (cs : List Child) : List Child :=
  cs.map (resizeChild oldW newW)

/-- The right margin of a child inside a group of width `gw`: the
distance from the child's right edge to the group's right edge. -/
def rightMargin (gw : Int) (c : Child) : Int :=
  gw - (c.x + c.w)

/-! ## Fl_SVG_File_Surface close protocol

`src/FL/Fl_SVG_File_Surface.H` declares the class and documents the
protocol; the member bodies are not among the excerpted sources, so
the close protocol is modelled from the header's documentation. -/

/-- How the surface closes its `FILE`: `fclose` (default) or the
`closef` function supplied at construction, embedded by the return
value it produces. -/
inductive CloseFn where
  | fclose
  | closef (ret : Int)
deriving DecidableEq, Repr

/-- State of an `Fl_SVG_File_Surface`: the graphics area, whether the
underlying `FILE` is still open, whether `close()` ran, and the
closing function chosen at construction. -/
structure SVGFileSurface where
  width : Int
  height : Int
  fileOpen : Bool
  closed : Bool
  closer : CloseFn
deriving DecidableEq, Repr

namespace SVGFileSurface

/-- Modelled from the spec: the constructor
`Fl_SVG_File_Surface(width, height, svg, closef)` takes an open `FILE`
and an optional closing function (`none` embeds `NULL`, meaning
`fclose`). -/
def mk' (width height : Int) (closef : Option Int) : SVGFileSurface :=
  { width := width, height := height, fileOpen := true, closed := false
    closer := match closef with
              | none => CloseFn.fclose
              | some r => CloseFn.closef r }

/-- The result of `fclose` on success. -/
def fcloseRet : Int := 0

/-- Modelled from the spec: `close()` closes the `FILE` pointer by
`fclose` unless another function was set at construction time, and
returns the value returned by that closing function call.  The only
operation possible afterwards is destruction. -/
def close (s : SVGFileSurface) : SVGFileSurface × Int :=
  ({ s with fileOpen := false, closed := true },
   match s.closer with
   | CloseFn.fclose => fcloseRet
   | CloseFn.closef r => r)

/-- Modelled from the spec: the destructor processes the `FILE`
pointer as by `close()` (the surface object then no longer exists; the
state returned is the final processing of the `FILE`). -/
def destroy (s : SVGFileSurface) : SVGFileSurface :=
  (close s).1

/-- The non-destructor operations of the surface
(`origin`, `translate`, `untranslate`, `printable_rect`, drawing). -/
inductive SurfaceOp where
  | setOrigin (x y : Int)
  | getOrigin
  | translate (x y : Int)
  | untranslate
  | printable_rect
  | draw
deriving DecidableEq, Repr

/-- Modelled from the spec: whether an operation on the surface (other
than destruction) succeeds; after `close()` every such operation
fails. -/
def opOk (s : SVGFileSurface) (_op : SurfaceOp) : Bool :=
  !s.closed

end SVGFileSurface

/-! ## Widget browser item model (`src/fluid/widgets/Node_Browser.cxx`)

The `Node` items form a doubly linked list with a `level` (depth)
field simulating a tree.  The list is embedded as a `List Node`; a
node pointer is an index into the list, a nullable pointer an
`Option Nat`.  `next` of the node at index `i` is index `i+1` when it
exists (`nullptr` embedded as `none` at the end), `prev` is `i-1`
(`none` at the start). -/

/-- A widget-browser node: the fields of `Node` that the browser code
reads and writes (`level` is the tree depth; `folded_`, `visible` and
`can_have_children()` drive the fold/unfold logic). -/
structure Node where
  level : Nat
  folded_ : Bool
  visible : Bool
  canHaveChildren : Bool
deriving DecidableEq, Repr

/-- Default node used by indexed access (never observed at in-range
indices). -/
def dfltNode : Node :=
  { level := 0, folded_ := false, visible := false, canHaveChildren := false }

/-- The `next` pointer of the node at index `i` of the list. -/
def nodeNext (t : List Node) (i : Nat) : Option Nat :=
  if i + 1 < t.length then some (i + 1) else none

/-- The `prev` pointer of the node at index `i` of the list. -/
def nodePrev (t : List Node) (i : Nat) : Option Nat :=
  if i = 0 then none else some (i - 1)

/-- `Node_Browser::item_first`: `return Fluid.proj.tree.first;` — the
head of the project tree list (`nullptr` when the list is empty). -/
def item_first (t : List Node) : Option Nat :=
  if t.length = 0 then none else some 0

/-- `Node_Browser::item_next`: `return ((Node*)l)->next;`. -/
def item_next (t : List Node) (i : Nat) : Option Nat :=
  nodeNext t i

/-- `Node_Browser::item_prev`: `return ((Node*)l)->prev;`. -/
def item_prev (t : List Node) (i : Nat) : Option Nat :=
  nodePrev t i

/-- Reassign every node's `level` field (used to state that the item
accessors are independent of tree depth). -/
def relabelLevels (f : Nat → Nat) (t : List Node) : List Node :=
  t.map fun n => { n with level := f n.level }

/-! ## `copy_trunc` (`src/fluid/widgets/Node_Browser.cxx`, lines 164-200)

The output buffer is embedded as the list of bytes the function
writes (in order, the terminating NUL included); the returned `char *`
is the offset of the NUL byte inside that list.  The input C string is
the list of its bytes strictly before the terminating NUL, so `*str`
at the end of the list reads `0`. -/

/-- Modelled from the spec: `fl_utf8len` (defined in `src/fl_utf.c`,
not among the excerpted sources).  Per the `copy_trunc` documentation
each UTF-8 character consists of at most 4 bytes, supporting code
points up to U+10FFFF, with sanity checks for illegal UTF-8 sequences:
the byte length of the sequence started by lead byte `c`, or `-1` when
`c` is not a valid lead byte. -/
def fl_utf8len (c : Nat) : Int :=
  if c < 0x80 then 1
  else if c < 0xC0 then -1
  else if c < 0xE0 then 2
  else if c < 0xF0 then 3
  else if c < 0xF5 then 4
  else -1

/-- The `while (size < maxl)` loop of `copy_trunc`: returns the bytes
written by the loop, the remaining input (`str` at loop exit), whether
the loop returned early (the `trunc_lf` newline path, which emits the
closing quote and NUL at once), and the number of loop iterations
(source characters consumed). -/
def copyLoop (str : List Nat) (size maxl : Int) (truncLf : Bool) :
    List Nat × List Nat × Bool × Nat :=
  if size < maxl then
    match str with
    | [] => ([], [], false, 0)
    | c :: rest =>
      if c = 10 then
        if truncLf then ([], c :: rest, true, 0)
        else
          let r := copyLoop rest (size + 2) maxl truncLf
          (92 :: 110 :: r.1, r.2.1, r.2.2.1, r.2.2.2 + 1)
      else if c &&& 0xE0 = 0 then ([], c :: rest, false, 0)
      else if fl_utf8len c ≤ 0 then ([], c :: rest, false, 0)
      else if (c :: rest).length < (fl_utf8len c).toNat then ([], c :: rest, false, 0)
      else
        let r := copyLoop ((c :: rest).drop (fl_utf8len c).toNat) (size + 1) maxl truncLf
        ((c :: rest).take (fl_utf8len c).toNat ++ r.1, r.2.1, r.2.2.1, r.2.2.2 + 1)
  else ([], str, false, 0)
termination_by str.length
decreasing_by
  · simp
  · have h1 : ¬ fl_utf8len c ≤ 0 := by assumption
    have h2 : 1 ≤ (fl_utf8len c).toNat := by omega
    simp only [List.length_drop, List.length_cons]
    omega

/-- The `if (*str && *str!='\n') strcpy(p,"...")` step after the loop:
the ellipsis bytes written when the string was truncated (`rest` is
the remaining input, whose head is `*str`; an empty `rest` reads the
terminating NUL). -/
def ellipsisFor (rest : List Nat) : List Nat :=
  match rest with
  | [] => []
  | c :: _ => if c ≠ 0 ∧ c ≠ 10 then [46, 46, 46] else []

/-- `copy_trunc(p, str, maxl, quote, trunc_lf)`: `pnull` embeds the
nullability of the output buffer `p`, `str = none` embeds a `NULL`
input string.  The result is `none` for a `NULL` buffer, otherwise the
list of bytes written (final NUL included) together with the offset of
the written NUL (the returned pointer).  The early-return path (the
`trunc_lf` newline case) skips the ellipsis step. -/
def copy_trunc (pnull : Bool) (str : Option (List Nat)) (maxl : Int)
    (quote truncLf : Bool) : Option (List Nat × Nat) :=
  if pnull then none
  else some (
    match str with
    | none =>
        let out := (if quote then [34, 34] else []) ++ [0]
        (out, out.length - 1)
    | some s =>
        let pre : List Nat := if quote then [34] else []
        let r := copyLoop s 0 maxl truncLf
        let ell : List Nat := if r.2.2.1 then [] else ellipsisFor r.2.1
        let out := pre ++ r.1 ++ ell ++ (if quote then [34] else []) ++ [0]
        (out, out.length - 1))

/-! ## Fold / unfold in `Node_Browser::handle` (FL_RELEASE, lines 550-566)

The loops walk the linked list by `next` pointers, i.e. by increasing
index; a null pointer is an index past the end of the list. -/

/-- `for (Node*k = l->next; k && k->level>l->level; k = k->next) k->visible = 0;`
— the fold loop, started at index `j`. -/
def foldLoop (t : List Node) (lvl : Nat) (j : Nat) : List Node :=
  if j < t.length ∧ (t.getD j dfltNode).level > lvl then
    foldLoop (t.set j { t.getD j dfltNode with visible := false }) lvl (j + 1)
  else t
termination_by t.length - j
decreasing_by
  simp only [List.length_set]
  omega

/-- Length of the inner skip loop
`for (j = k->next; j && j->level>k->level; j = j->next)`: the number
of consecutive nodes from index `j` on whose level exceeds `lvl`. -/
def skipLen (t : List Node) (lvl : Nat) (j : Nat) : Nat :=
  if j < t.length ∧ (t.getD j dfltNode).level > lvl then
    skipLen t lvl (j + 1) + 1
  else 0
termination_by t.length - j

/-- The unfold loop of `Node_Browser::handle`: each visited node `k`
with `k->level > l->level` gets `visible = 1`; when `k` can have
children and is itself folded, the walk jumps past `k`'s subtree
(leaving those nodes untouched), else it advances to `k->next`. -/
def unfoldLoop (t : List Node) (lvl : Nat) (j : Nat) : List Node :=
  if j < t.length ∧ (t.getD j dfltNode).level > lvl then
    let k := t.getD j dfltNode
    let t' := t.set j { k with visible := true }
    if k.canHaveChildren && k.folded_ then
      unfoldLoop t' lvl (j + 1 + skipLen t' k.level (j + 1))
    else
      unfoldLoop t' lvl (j + 1)
  else t
termination_by t.length - j
decreasing_by
  · simp only [List.length_set]
    omega
  · simp only [List.length_set]
    omega

/-- The `FL_RELEASE` branch of `Node_Browser::handle` when the release
happened on the fold triangle of the node `l` at index `i`: toggle
`l->folded_` and run the fold (respectively unfold) loop over the
following nodes. -/
def handleRelease (t : List Node) (i : Nat) : List Node :=
  if i < t.length then
    let l := t.getD i dfltNode
    if !l.folded_ then
      foldLoop (t.set i { l with folded_ := true }) l.level (i + 1)
    else
      unfoldLoop (t.set i { l with folded_ := false }) l.level (i + 1)
  else t

/-- Index `j` lies in the span of the node at index `i`: it follows
`i` and every node strictly between `i` (exclusive) and `j`
(inclusive) has level greater than `i`'s level.  These are exactly the
nodes the fold/unfold loops iterate over. -/
def inSpan (t : List Node) (i j : Nat) : Prop :=
  i < j ∧ j < t.length ∧
    ∀ m, i < m → m ≤ j → (t.getD m dfltNode).level > (t.getD i dfltNode).level

/-- Index `j` lies strictly inside the subtree of the node at index
`k`: it follows `k` and every node strictly between `k` (exclusive)
and `j` (inclusive) has level greater than `k`'s level. -/
def inSubtree (t : List Node) (k j : Nat) : Prop :=
  k < j ∧ j < t.length ∧
    ∀ m, k < m → m ≤ j → (t.getD m dfltNode).level > (t.getD k dfltNode).level

/-- Index `j` is hidden under a folded descendant of the node at index
`i`: some node `k` in `i`'s span can have children, is itself folded,
and has `j` strictly inside its subtree. -/
def underFolded (t : List Node) (i j : Nat) : Prop :=
  ∃ k, inSpan t i k ∧ (t.getD k dfltNode).canHaveChildren = true ∧
    (t.getD k dfltNode).folded_ = true ∧ inSubtree t k j

/-- Index `m` lies strictly inside the subtree of some node at index
`k` at or after `p` that can have children and is folded (the nodes
the unfold loop jumps over, relative to loop start `p`). -/
def covered (t : List Node) (p m : Nat) : Prop :=
  ∃ k, p ≤ k ∧ k < m ∧ (t.getD k dfltNode).canHaveChildren = true ∧
    (t.getD k dfltNode).folded_ = true ∧
    ∀ r, k < r → r ≤ m → (t.getD r dfltNode).level > (t.getD k dfltNode).level

/-! ## Helper lemmas -/

/-- Draining the ring yields exactly its queue, oldest first. -/
theorem drainAll_eq (q : List AwakeEntry) (cap : Nat) :
    drainAll ⟨q, cap⟩ = q := by
  induction q with
  | nil =>
      rw [drainAll]
      split
      · rfl
      · next a heq => simp [pop_awake_handler] at heq
  | cons e es ih =>
      rw [drainAll]
      split
      · next heq => simp [pop_awake_handler] at heq
      · next a heq =>
          simp only [pop_awake_handler, List.head?_cons, Option.some.injEq] at heq
          subst heq
          simp only [pop_awake_handler, List.tail_cons]
          rw [ih]

/-- Pushing entries that fit into the remaining capacity appends them
in order and never fires the overflow policy. -/
theorem pushAll_fits (es : List AwakeEntry) (q : List AwakeEntry) (cap : Nat)
    (h : q.length + es.length ≤ cap) :
    pushAll ⟨q, cap⟩ es = (⟨q ++ es, cap⟩, 0) := by
  induction es generalizing q with
  | nil => simp [pushAll]
  | cons e es ih =>
      have hlt : q.length < cap := by
        simp only [List.length_cons] at h; omega
      have h' : (q ++ [e]).length + es.length ≤ cap := by
        simp only [List.length_append, List.length_cons, List.length_nil]
        simp only [List.length_cons] at h; omega
      simp only [pushAll, push_awake_handler, hlt, if_pos]
      rw [ih (q ++ [e]) h']
      simp

/-- `pushAll` splits over list append. -/
theorem pushAll_append (r : AwakeRing) (as bs : List AwakeEntry) :
    pushAll r (as ++ bs) =
      ((pushAll (pushAll r as).1 bs).1,
       (pushAll r as).2 + (pushAll (pushAll r as).1 bs).2) := by
  induction as generalizing r with
  | nil => simp [pushAll]
  | cons a as ih =>
      simp only [List.cons_append, pushAll, List.append_eq]
      rw [ih]
      ring_nf

/-- `applyOps` splits over list append. -/
theorem applyOps_append (s : ClipStack) (as bs : List ClipOp) :
    applyOps s (as ++ bs) = applyOps (applyOps s as) bs := by
  induction as generalizing s with
  | nil => simp [applyOps]
  | cons a as ih => simp [applyOps, ih]

/-- A balanced sequence of clip operations leaves the clip stack
exactly as it found it. -/
theorem applyOps_nested (ops : List ClipOp) (h : Nested ops) (s : ClipStack) :
    applyOps s ops = s := by
  induction h generalizing s with
  | nil => rfl
  | scope r inner rest _ _ ih_inner ih_rest =>
      simp only [applyOps, applyOp, List.append_eq]
      rw [applyOps_append, ih_inner]
      simp only [applyOps, applyOp]
      have hpp : pop_clip (push_clip r s) = s := rfl
      rw [hpp, ih_rest]

/-- The deadline chain of a repeating timer is arithmetic: the `k`-th
deadline is the original schedule time plus `k` periods, independently
of the actual fire times. -/
theorem timerDeadline_eq (s p : Nat) (fire : Nat → Nat) (k : Nat) :
    timerDeadline s p fire k = s + k * p := by
  induction k with
  | zero => simp [timerDeadline]
  | succ n ih =>
      simp only [timerDeadline, repeat_timeout, ih]
      ring

/-- `fl_utf8len` never reports more than 4 bytes. -/
theorem fl_utf8len_le (c : Nat) : fl_utf8len c ≤ 4 := by
  unfold fl_utf8len
  split_ifs <;> norm_num

/-- Byte and character bounds of the `copy_trunc` loop: starting at
character count `size`, the loop writes at most `4 * (maxl - size)`
bytes and consumes at most `maxl - size` source characters. -/
theorem copyLoop_bounds (str : List Nat) (size maxl : Int) (t : Bool) :
    (copyLoop str size maxl t).1.length ≤ (4 * (maxl - size)).toNat ∧
    (copyLoop str size maxl t).2.2.2 ≤ (maxl - size).toNat := by
  induction str, size, maxl, t using copyLoop.induct with
  | case1 size maxl t hsz =>
      rw [copyLoop.eq_def]
      simp [hsz]
  | case2 size maxl hsz rest =>
      rw [copyLoop.eq_def]
      simp [hsz]
  | case3 size maxl t hsz rest ht ih =>
      rw [Bool.not_eq_true] at ht
      subst ht
      obtain ⟨ih1, ih2⟩ := ih
      rw [copyLoop.eq_def]
      simp only [hsz, ite_true, if_true, if_pos rfl, Bool.false_eq_true,
        ite_false, if_false, List.length_cons]
      constructor
      · omega
      · omega
  | case4 size maxl t hsz c rest hc hctl =>
      rw [copyLoop.eq_def]
      simp [hsz, hc, hctl]
  | case5 size maxl t hsz c rest hc hctl hbs =>
      rw [copyLoop.eq_def]
      simp [hsz, hc, hctl, hbs]
  | case6 size maxl t hsz c rest hc hctl hbs hlen =>
      rw [copyLoop.eq_def]
      simp only [hsz, ite_true, if_true, hc, hctl, hbs, ite_false, if_false]
      rw [if_pos hlen]
      simp
  | case7 size maxl t hsz c rest hc hctl hbs hlen ih =>
      obtain ⟨ih1, ih2⟩ := ih
      rw [copyLoop.eq_def]
      simp only [hsz, ite_true, if_true, hc, hctl, hbs, ite_false, if_false]
      rw [if_neg hlen]
      simp only [List.length_append, List.length_take, List.length_cons]
      have h4 : fl_utf8len c ≤ 4 := fl_utf8len_le c
      constructor
      · omega
      · omega
  | case8 str size maxl t hsz =>
      rw [copyLoop.eq_def]
      simp [hsz]

/-- The ellipsis step writes at most 3 bytes. -/
theorem ellipsisFor_length (rest : List Nat) : (ellipsisFor rest).length ≤ 3 := by
  rw [ellipsisFor.eq_def]
  split
  · simp
  · split <;> simp

/-- Indexed read after an indexed write on a node list. -/
theorem getD_set (t : List Node) (i m : Nat) (x : Node) :
    (t.set i x).getD m dfltNode =
      if i = m ∧ i < t.length then x else t.getD m dfltNode := by
  rcases eq_or_ne i m with rfl | hne
  · by_cases h : i < t.length
    · simp [List.getD_eq_getElem?_getD, List.getElem?_set_self, h]
    · rw [List.set_eq_of_length_le (by omega)]
      simp [h]
  · simp [List.getD_eq_getElem?_getD, List.getElem?_set_ne hne, hne]

/-- Every index at least `p` and below `p + skipLen t lvl p` satisfies
the walk guard: it is in range and its level exceeds `lvl`. -/
theorem skipLen_mem (t : List Node) (lvl p m : Nat)
    (h1 : p ≤ m) (h2 : m < p + skipLen t lvl p) :
    m < t.length ∧ (t.getD m dfltNode).level > lvl := by
  by_cases hg : p < t.length ∧ (t.getD p dfltNode).level > lvl
  · rcases eq_or_lt_of_le h1 with rfl | hlt
    · exact hg
    · have hrec := skipLen_mem t lvl (p + 1) m (by omega) ?_
      · exact hrec
      · rw [skipLen.eq_def] at h2
        simp only [hg, and_self, ite_true] at h2
        omega
  · rw [skipLen.eq_def] at h2
    simp only [hg, ite_false] at h2
    omega
termination_by t.length - p
decreasing_by
  omega

/-- The walk guard fails right at `p + skipLen t lvl p`. -/
theorem skipLen_end (t : List Node) (lvl p : Nat) :
    ¬ (p + skipLen t lvl p < t.length ∧
       (t.getD (p + skipLen t lvl p) dfltNode).level > lvl) := by
  by_cases hg : p < t.length ∧ (t.getD p dfltNode).level > lvl
  · have hrec := skipLen_end t lvl (p + 1)
    rw [skipLen.eq_def]
    simp only [hg, and_self, ite_true]
    have harith : p + (skipLen t lvl (p + 1) + 1) = p + 1 + skipLen t lvl (p + 1) := by
      omega
    rw [harith]
    exact hrec
  · rw [skipLen.eq_def]
    simp only [hg, ite_false]
    simpa using hg
termination_by t.length - p
decreasing_by
  omega

/-- `p + skipLen t lvl p` is the unique first guard failure at or
after `p`. -/
theorem skipLen_unique (t : List Node) (lvl p E : Nat) (hpE : p ≤ E)
    (hall : ∀ m, p ≤ m → m < E →
      m < t.length ∧ (t.getD m dfltNode).level > lvl)
    (hfail : ¬ (E < t.length ∧ (t.getD E dfltNode).level > lvl)) :
    p + skipLen t lvl p = E := by
  rcases lt_trichotomy (p + skipLen t lvl p) E with h | h | h
  · exact absurd (hall _ (by omega) h) (skipLen_end t lvl p)
  · exact h
  · exact absurd (skipLen_mem t lvl p E hpE h) hfail

/-- `skipLen` only reads the lengths and the levels at indices from
`p` on. -/
theorem skipLen_congr (t₁ t₂ : List Node) (lvl : Nat)
    (hlen : t₁.length = t₂.length) (p : Nat)
    (h : ∀ m, p ≤ m → (t₁.getD m dfltNode).level = (t₂.getD m dfltNode).level) :
    skipLen t₁ lvl p = skipLen t₂ lvl p := by
  by_cases hg : p < t₁.length ∧ (t₁.getD p dfltNode).level > lvl
  · have hg₂ : p < t₂.length ∧ (t₂.getD p dfltNode).level > lvl := by
      rw [← hlen, ← h p le_rfl]
      exact hg
    have hrec := skipLen_congr t₁ t₂ lvl hlen (p + 1) (fun m hm => h m (by omega))
    rw [skipLen.eq_def, hrec]
    conv_rhs => rw [skipLen.eq_def]
    simp only [hg, hg₂, and_self, ite_true]
  · have hg₂ : ¬ (p < t₂.length ∧ (t₂.getD p dfltNode).level > lvl) := by
      rw [← hlen, ← h p le_rfl]
      exact hg
    rw [skipLen.eq_def]
    conv_rhs => rw [skipLen.eq_def]
    simp only [hg, hg₂, ite_false]
termination_by t₁.length - p
decreasing_by
  omega

/-- `covered` only reads levels, fold flags and child capability at
indices from `p` on. -/
theorem covered_congr (t₁ t₂ : List Node) (p m : Nat)
    (h : ∀ r, p ≤ r →
      (t₁.getD r dfltNode).level = (t₂.getD r dfltNode).level ∧
      (t₁.getD r dfltNode).canHaveChildren = (t₂.getD r dfltNode).canHaveChildren ∧
      (t₁.getD r dfltNode).folded_ = (t₂.getD r dfltNode).folded_) :
    covered t₁ p m ↔ covered t₂ p m := by
  unfold covered
  constructor
  · rintro ⟨k, hpk, hkm, hchc, hfold, hlev⟩
    refine ⟨k, hpk, hkm, ?_, ?_, ?_⟩
    · rw [← (h k hpk).2.1]; exact hchc
    · rw [← (h k hpk).2.2]; exact hfold
    · intro r hkr hrm
      rw [← (h r (by omega)).1, ← (h k hpk).1]
      exact hlev r hkr hrm
  · rintro ⟨k, hpk, hkm, hchc, hfold, hlev⟩
    refine ⟨k, hpk, hkm, ?_, ?_, ?_⟩
    · rw [(h k hpk).2.1]; exact hchc
    · rw [(h k hpk).2.2]; exact hfold
    · intro r hkr hrm
      rw [(h r (by omega)).1, (h k hpk).1]
      exact hlev r hkr hrm

/-- Characterization of the fold loop: it clears `visible` on exactly
the indices in `[p, p + skipLen t lvl p)` and touches nothing else. -/
theorem foldLoop_getD (t : List Node) (lvl p m : Nat) :
    (foldLoop t lvl p).getD m dfltNode =
      if p ≤ m ∧ m < p + skipLen t lvl p then
        { t.getD m dfltNode with visible := false }
      else t.getD m dfltNode := by
  by_cases hg : p < t.length ∧ (t.getD p dfltNode).level > lvl
  · have hlen' : (t.set p { t.getD p dfltNode with visible := false }).length
        = t.length := by
      simp [List.length_set]
    have hget' : ∀ m', (t.set p { t.getD p dfltNode with visible := false
        }).getD m' dfltNode =
        if p = m' ∧ p < t.length then { t.getD p dfltNode with visible := false }
        else t.getD m' dfltNode := fun m' => getD_set t p m' _
    have hlev' : ∀ m', p + 1 ≤ m' →
        ((t.set p { t.getD p dfltNode with visible := false }).getD m'
          dfltNode).level = (t.getD m' dfltNode).level := by
      intro m' hm'
      rw [hget']
      split
      · omega
      · rfl
    have hsk : skipLen (t.set p { t.getD p dfltNode with visible := false })
        lvl (p + 1) = skipLen t lvl (p + 1) :=
      skipLen_congr _ t lvl hlen' (p + 1) hlev'
    have hskp : skipLen t lvl p = skipLen t lvl (p + 1) + 1 := by
      rw [skipLen.eq_def]
      simp only [hg, and_self, ite_true]
    have hrec := foldLoop_getD
      (t.set p { t.getD p dfltNode with visible := false }) lvl (p + 1) m
    rw [foldLoop.eq_def]
    simp only [hg, and_self, ite_true]
    rw [hrec, hsk, hget' m]
    rcases eq_or_ne p m with rfl | hne
    · simp only [le_refl, true_and, and_self, hg.1, ite_true]
      have h1 : ¬ (p + 1 ≤ p ∧ p < p + 1 + skipLen t lvl (p + 1)) := by omega
      have h2 : p ≤ p ∧ p < p + skipLen t lvl p := by omega
      simp only [h1, ite_false, h2, ite_true]
    · have h3 : ¬ (p = m ∧ p < t.length) := by
        intro hc
        exact hne hc.1
      simp only [h3, ite_false]
      have h4 : (p + 1 ≤ m ∧ m < p + 1 + skipLen t lvl (p + 1)) ↔
          (p ≤ m ∧ m < p + skipLen t lvl p) := by
        omega
      split
      · next hthen =>
          rw [if_pos (h4.mp hthen)]
      · next helse =>
          rw [if_neg fun hc => helse (h4.mpr hc)]
  · rw [foldLoop.eq_def]
    simp only [hg, ite_false]
    have h0 : skipLen t lvl p = 0 := by
      rw [skipLen.eq_def]
      simp only [hg, ite_false]
    rw [h0]
    have h5 : ¬ (p ≤ m ∧ m < p + 0) := by omega
    rw [if_neg h5]
termination_by t.length - p
decreasing_by
  simp only [List.length_set]
  omega

/-- Characterization of the unfold loop: on the walked range
`[p, p + skipLen t lvl p)` it sets `visible` on exactly the indices
not covered by a folded subtree root, leaves covered indices as they
were, and touches nothing outside the range. -/
theorem unfoldLoop_getD (t : List Node) (lvl p m : Nat) :
    (¬ (p ≤ m ∧ m < p + skipLen t lvl p) →
      (unfoldLoop t lvl p).getD m dfltNode = t.getD m dfltNode) ∧
    (p ≤ m → m < p + skipLen t lvl p → covered t p m →
      (unfoldLoop t lvl p).getD m dfltNode = t.getD m dfltNode) ∧
    (p ≤ m → m < p + skipLen t lvl p → ¬ covered t p m →
      (unfoldLoop t lvl p).getD m dfltNode =
        { t.getD m dfltNode with visible := true }) := by
  by_cases hg : p < t.length ∧ (t.getD p dfltNode).level > lvl
  case neg =>
    have hU : unfoldLoop t lvl p = t := by
      rw [unfoldLoop.eq_def]
      simp only [hg, ite_false]
    have h0 : skipLen t lvl p = 0 := by
      rw [skipLen.eq_def]
      simp only [hg, ite_false]
    rw [hU, h0]
    refine ⟨fun _ => rfl, ?_, ?_⟩ <;>
      (intro h1 h2; exact absurd h2 (by omega))
  case pos =>
    have hlen' : (t.set p { t.getD p dfltNode with visible := true }).length
        = t.length := by
      simp [List.length_set]
    have hget' : ∀ m',
        (t.set p { t.getD p dfltNode with visible := true }).getD m' dfltNode =
          if p = m' ∧ p < t.length then { t.getD p dfltNode with visible := true }
          else t.getD m' dfltNode := fun m' => getD_set t p m' _
    have hne' : ∀ m', p + 1 ≤ m' →
        (t.set p { t.getD p dfltNode with visible := true }).getD m' dfltNode
          = t.getD m' dfltNode := by
      intro m' hm'
      rw [hget', if_neg]
      rintro ⟨h1, _⟩
      omega
    have hskp1 : ∀ L q, p + 1 ≤ q →
        skipLen (t.set p { t.getD p dfltNode with visible := true }) L q
          = skipLen t L q := by
      intro L q hq
      refine skipLen_congr _ t L hlen' q ?_
      intro m' hm'
      rw [hne' m' (by omega)]
    have hcov1 : ∀ q m', p + 1 ≤ q →
        (covered (t.set p { t.getD p dfltNode with visible := true }) q m'
          ↔ covered t q m') := by
      intro q m' hq
      refine covered_congr _ t q m' ?_
      intro r hr
      rw [hne' r (by omega)]
      exact ⟨rfl, rfl, rfl⟩
    have hskp : skipLen t lvl p = skipLen t lvl (p + 1) + 1 := by
      rw [skipLen.eq_def]
      simp only [hg, and_self, ite_true]
    by_cases hkf : ((t.getD p dfltNode).canHaveChildren
        && (t.getD p dfltNode).folded_) = true
    case pos =>
      have hU : unfoldLoop t lvl p =
          unfoldLoop (t.set p { t.getD p dfltNode with visible := true }) lvl
            (p + 1 + skipLen (t.set p { t.getD p dfltNode with visible := true })
              (t.getD p dfltNode).level (p + 1)) := by
        rw [unfoldLoop.eq_def]
        simp only [hg, and_self, ite_true, hkf, if_true]
      rw [hskp1 (t.getD p dfltNode).level (p + 1) le_rfl] at hU
      obtain ⟨S, hS⟩ : ∃ S, skipLen t (t.getD p dfltNode).level (p + 1) = S :=
        ⟨_, rfl⟩
      rw [hS] at hU
      have hmemS : ∀ m', p + 1 ≤ m' → m' < p + 1 + S →
          m' < t.length ∧
            (t.getD m' dfltNode).level > (t.getD p dfltNode).level := by
        intro m' h1 h2
        exact skipLen_mem t (t.getD p dfltNode).level (p + 1) m' h1 (by omega)
      have hfailS : ¬ (p + 1 + S < t.length ∧
          (t.getD (p + 1 + S) dfltNode).level > (t.getD p dfltNode).level) := by
        have := skipLen_end t (t.getD p dfltNode).level (p + 1)
        rw [hS] at this
        exact this
      have hspan : p + skipLen t lvl p =
          (p + 1 + S) + skipLen t lvl (p + 1 + S) := by
        refine skipLen_unique t lvl p _ (by omega) ?_ (skipLen_end t lvl (p + 1 + S))
        intro m' h1 h2
        rcases eq_or_lt_of_le h1 with rfl | hlt
        · exact hg
        · rcases lt_or_ge m' (p + 1 + S) with hmlt | hmge
          · have := hmemS m' (by omega) hmlt
            exact ⟨this.1, by omega⟩
          · exact skipLen_mem t lvl (p + 1 + S) m' hmge (by omega)
      have hrec := unfoldLoop_getD
        (t.set p { t.getD p dfltNode with visible := true }) lvl (p + 1 + S) m
      obtain ⟨hr1, hr2, hr3⟩ := hrec
      rw [hskp1 lvl (p + 1 + S) (by omega)] at hr1 hr2 hr3
      have hcovE : ∀ m', p + 1 + S ≤ m' → m' < p + skipLen t lvl p →
          (covered t p m' ↔ covered t (p + 1 + S) m') := by
        intro m' hm1 hm2
        constructor
        · rintro ⟨k, hk1, hk2, hk3, hk4, hk5⟩
          rcases lt_or_ge k (p + 1 + S) with hklt | hkge
          · exfalso
            have hr := hk5 (p + 1 + S) (by omega) (by omega)
            have hlenE : p + 1 + S < t.length := by
              have := skipLen_mem t lvl p m' (by omega) hm2
              omega
            have hkl : (t.getD k dfltNode).level ≥
                (t.getD p dfltNode).level := by
              rcases eq_or_lt_of_le hk1 with rfl | h
              · exact le_rfl
              · exact le_of_lt (hmemS k h hklt).2
            exact hfailS ⟨hlenE, by omega⟩
          · exact ⟨k, hkge, hk2, hk3, hk4, hk5⟩
        · rintro ⟨k, hk1, hk2, hk3, hk4, hk5⟩
          exact ⟨k, by omega, hk2, hk3, hk4, hk5⟩
      refine ⟨?_, ?_, ?_⟩
      · intro hout
        rw [hU, hr1 (by omega), hget', if_neg]
        rintro ⟨hpm, _⟩
        subst hpm
        exact hout ⟨le_rfl, by omega⟩
      · intro h1 h2 hcov
        rcases eq_or_lt_of_le h1 with rfl | hlt
        · exact absurd hcov (by rintro ⟨k, hk1, hk2, hk3, hk4, hk5⟩; omega)
        · rcases lt_or_ge m (p + 1 + S) with hmlt | hmge
          · rw [hU, hr1 (by omega), hne' m (by omega)]
          · rw [hU, hr2 (by omega) (by omega) ?_, hne' m (by omega)]
            rw [hcov1 (p + 1 + S) m (by omega)]
            exact (hcovE m hmge h2).mp hcov
      · intro h1 h2 hncov
        rcases eq_or_lt_of_le h1 with rfl | hlt
        · rw [hU, hr1 (by omega), hget', if_pos ⟨rfl, hg.1⟩]
        · rcases lt_or_ge m (p + 1 + S) with hmlt | hmge
          · exfalso
            apply hncov
            have hkf' := hkf
            rw [Bool.and_eq_true] at hkf'
            refine ⟨p, le_rfl, hlt, hkf'.1, hkf'.2, ?_⟩
            intro r hra hrb
            exact (hmemS r (by omega) (by omega)).2
          · rw [hU, hr3 (by omega) (by omega) ?_, hne' m (by omega)]
            rw [hcov1 (p + 1 + S) m (by omega)]
            intro hc
            exact hncov ((hcovE m hmge h2).mpr hc)
    case neg =>
      have hU : unfoldLoop t lvl p =
          unfoldLoop (t.set p { t.getD p dfltNode with visible := true }) lvl
            (p + 1) := by
        rw [unfoldLoop.eq_def]
        simp only [hg, and_self, ite_true, hkf, Bool.false_eq_true, ite_false]
      have hrec := unfoldLoop_getD
        (t.set p { t.getD p dfltNode with visible := true }) lvl (p + 1) m
      obtain ⟨hr1, hr2, hr3⟩ := hrec
      rw [hskp1 lvl (p + 1) le_rfl] at hr1 hr2 hr3
      refine ⟨?_, ?_, ?_⟩
      · intro hout
        rw [hU, hr1 (by omega), hget', if_neg]
        rintro ⟨hpm, _⟩
        subst hpm
        exact hout ⟨le_rfl, by omega⟩
      · intro h1 h2 hcov
        rcases eq_or_lt_of_le h1 with rfl | hlt
        · exact absurd hcov (by rintro ⟨k, hk1, hk2, hk3, hk4, hk5⟩; omega)
        · rw [hU, hr2 (by omega) (by omega) ?_, hne' m (by omega)]
          rw [hcov1 (p + 1) m le_rfl]
          obtain ⟨k, hk1, hk2, hk3, hk4, hk5⟩ := hcov
          refine ⟨k, ?_, hk2, hk3, hk4, hk5⟩
          rcases eq_or_lt_of_le hk1 with rfl | h
          · exact absurd (by rw [Bool.and_eq_true]; exact ⟨hk3, hk4⟩ :
              ((t.getD p dfltNode).canHaveChildren
                && (t.getD p dfltNode).folded_) = true) hkf
          · omega
      · intro h1 h2 hncov
        rcases eq_or_lt_of_le h1 with rfl | hlt
        · rw [hU, hr1 (by omega), hget', if_pos ⟨rfl, hg.1⟩]
        · rw [hU, hr3 (by omega) (by omega) ?_, hne' m (by omega)]
          rw [hcov1 (p + 1) m le_rfl]
          intro hc
          apply hncov
          obtain ⟨k, hk1, hk2, hk3, hk4, hk5⟩ := hc
          exact ⟨k, by omega, hk2, hk3, hk4, hk5⟩
termination_by t.length - p
decreasing_by
  · simp only [List.length_set]
    omega
  · simp only [List.length_set]
    omega

/-- The span of the node at index `i` is exactly the interval walked
by the loops started at `i + 1` with level bound the level of `i`. -/
theorem inSpan_iff (t : List Node) (i j : Nat) :
    inSpan t i j ↔
      (i + 1 ≤ j ∧
        j < i + 1 + skipLen t (t.getD i dfltNode).level (i + 1)) := by
  constructor
  · rintro ⟨hij, hjlen, hlev⟩
    refine ⟨by omega, ?_⟩
    by_contra hge
    push_neg at hge
    have hE := skipLen_end t (t.getD i dfltNode).level (i + 1)
    have hEj : i + 1 + skipLen t (t.getD i dfltNode).level (i + 1) ≤ j := hge
    have hlevE := hlev (i + 1 + skipLen t (t.getD i dfltNode).level (i + 1))
      (by omega) (by omega)
    exact hE ⟨by omega, hlevE⟩
  · rintro ⟨h1, h2⟩
    have hj := skipLen_mem t (t.getD i dfltNode).level (i + 1) j h1 (by omega)
    refine ⟨by omega, hj.1, ?_⟩
    intro m hm1 hm2
    exact (skipLen_mem t (t.getD i dfltNode).level (i + 1) m (by omega)
      (by omega)).2

/-- For `j` in the span of `i`, being hidden under a folded descendant
of `i` is exactly being covered relative to loop start `i + 1`. -/
theorem underFolded_iff_covered (t : List Node) (i j : Nat)
    (hj : inSpan t i j) :
    underFolded t i j ↔ covered t (i + 1) j := by
  constructor
  · rintro ⟨k, ⟨hik, hklen, hklev⟩, hchc, hfold, ⟨hkj, hjlen, hjlev⟩⟩
    exact ⟨k, by omega, hkj, hchc, hfold, hjlev⟩
  · rintro ⟨k, hk1, hk2, hchc, hfold, hlev⟩
    obtain ⟨hij, hjlen, hspan⟩ := hj
    refine ⟨k, ⟨by omega, by omega, ?_⟩, hchc, hfold, ⟨hk2, hjlen, hlev⟩⟩
    intro m hm1 hm2
    exact hspan m hm1 (by omega)

/-! ## Claims -/

/-- C2: every unimplemented default operation of `Fl_System_Driver`
returns its documented failure sentinel instead of raising: `open`,
`open_ext`, `putenv`, `system`, `execvp`, `chmod`, `access`, `flstat`,
`chdir`, `unlink`, `mkdir`, `rmdir`, `rename`, `filename_list` and
`close_fd` return `-1`; `getenv`, `strdup`, `getcwd`, `getpwnam`,
`preference_rootnode` and `load` return `NULL`; and
`home_directory_name` returns the empty string. -/
theorem system_driver_default_sentinels :
    (∀ f o p, Fl_System_Driver.«open» f o p = -1) ∧
    (∀ f b o p, Fl_System_Driver.open_ext f b o p = -1) ∧
    (∀ s, Fl_System_Driver.putenv s = -1) ∧
    (∀ c, Fl_System_Driver.system c = -1) ∧
    (∀ f a, Fl_System_Driver.execvp f a = -1) ∧
    (∀ f m, Fl_System_Driver.chmod f m = -1) ∧
    (∀ f m, Fl_System_Driver.access f m = -1) ∧
    (∀ f, Fl_System_Driver.flstat f = -1) ∧
    (∀ d, Fl_System_Driver.chdir d = -1) ∧
    (∀ f, Fl_System_Driver.unlink f = -1) ∧
    (∀ f m, Fl_System_Driver.mkdir f m = -1) ∧
    (∀ d, Fl_System_Driver.rmdir d = -1) ∧
    (∀ f n, Fl_System_Driver.rename f n = -1) ∧
    (∀ d, Fl_System_Driver.filename_list d = -1) ∧
    (∀ fd, Fl_System_Driver.close_fd fd = -1) ∧
    (∀ n, Fl_System_Driver.getenv n = none) ∧
    (∀ s, Fl_System_Driver.strdup s = none) ∧
    (∀ b l, Fl_System_Driver.getcwd b l = none) ∧
    (∀ u, Fl_System_Driver.getpwnam u = none) ∧
    (∀ v a, Fl_System_Driver.preference_rootnode v a = none) ∧
    (∀ l, Fl_System_Driver.load l = none) ∧
    Fl_System_Driver.home_directory_name = "" := by
  refine ⟨?_, ?_, ?_, ?_, ?_, ?_, ?_, ?_, ?_, ?_, ?_, ?_, ?_, ?_, ?_, ?_,
    ?_, ?_, ?_, ?_, ?_, ?_⟩ <;> intros <;> rfl

/-- C1: pushing onto a full awake ring silently drops the oldest
unconsumed entry and keeps the new one (rather than rejecting it), and
enqueueing `capacity + 1` entries into an empty ring fires this
overflow policy exactly once. -/
theorem awake_ring_overflow_drops_oldest (r : AwakeRing) (e : AwakeEntry)
    (cap : Nat) (es : List AwakeEntry) (hcap : 1 ≤ cap)
    (hfull : r.queue.length = r.capacity) (hlen : es.length = cap + 1) :
    push_awake_handler r e = ({ r with queue := r.queue.tail ++ [e] }, true) ∧
    (pushAll ⟨[], cap⟩ es).2 = 1 ∧
    (pushAll ⟨[], cap⟩ es).1.queue = es.tail := by
  refine ⟨?_, ?_⟩
  · simp [push_awake_handler, hfull]
  · obtain ⟨as, a, rfl⟩ : ∃ as a, es = as ++ [a] := by
      rcases List.eq_nil_or_concat es with h | ⟨as, a, h⟩
      · simp [h] at hlen
      · exact ⟨as, a, by simpa [List.concat_eq_append] using h⟩
    have hlen' : as.length = cap := by
      simp only [List.length_append, List.length_cons, List.length_nil] at hlen
      omega
    have hfit : ([] : List AwakeEntry).length + as.length ≤ cap := by
      simp [hlen']
    rw [pushAll_append, pushAll_fits as [] cap hfit]
    have hnotlt : ¬ (as.length < cap) := by omega
    simp only [List.nil_append, pushAll, push_awake_handler, hnotlt, if_false]
    refine ⟨rfl, ?_⟩
    cases as with
    | nil => omega
    | cons x xs => simp

/-- Witness for C1: a full ring of capacity 2 receiving a third entry. -/
theorem awake_ring_overflow_drops_oldest_witness :
    push_awake_handler ⟨[⟨1, 1⟩, ⟨2, 2⟩], 2⟩ ⟨3, 3⟩ =
      ({ (⟨[⟨1, 1⟩, ⟨2, 2⟩], 2⟩ : AwakeRing) with
          queue := (⟨[⟨1, 1⟩, ⟨2, 2⟩], 2⟩ : AwakeRing).queue.tail ++ [⟨3, 3⟩] },
        true) ∧
    (pushAll ⟨[], 2⟩ [⟨1, 1⟩, ⟨2, 2⟩, ⟨3, 3⟩]).2 = 1 ∧
    (pushAll ⟨[], 2⟩ [⟨1, 1⟩, ⟨2, 2⟩, ⟨3, 3⟩]).1.queue =
      ([⟨1, 1⟩, ⟨2, 2⟩, ⟨3, 3⟩] : List AwakeEntry).tail :=
  awake_ring_overflow_drops_oldest ⟨[⟨1, 1⟩, ⟨2, 2⟩], 2⟩ ⟨3, 3⟩ 2
    [⟨1, 1⟩, ⟨2, 2⟩, ⟨3, 3⟩] (by decide) (by decide) (by decide)

/-- C3: enqueueing `K ≤ capacity` entries and then draining the ring
through `pop_awake_handler` on the loop thread yields exactly `K`
handler invocations, in the FIFO order in which they were enqueued
(and the overflow policy never fires). -/
theorem awake_ring_fifo (cap : Nat) (es : List AwakeEntry)
    (h : es.length ≤ cap) :
    drainAll (pushAll ⟨[], cap⟩ es).1 = es ∧
    (drainAll (pushAll ⟨[], cap⟩ es).1).length = es.length ∧
    (pushAll ⟨[], cap⟩ es).2 = 0 := by
  have hfit : ([] : List AwakeEntry).length + es.length ≤ cap := by simpa using h
  rw [pushAll_fits es [] cap hfit]
  simp [drainAll_eq]

/-- Witness for C3: two entries through a ring of capacity 3. -/
theorem awake_ring_fifo_witness :
    drainAll (pushAll ⟨[], 3⟩ [⟨1, 1⟩, ⟨2, 2⟩]).1 = [⟨1, 1⟩, ⟨2, 2⟩] ∧
    (drainAll (pushAll ⟨[], 3⟩ [⟨1, 1⟩, ⟨2, 2⟩]).1).length =
      ([⟨1, 1⟩, ⟨2, 2⟩] : List AwakeEntry).length ∧
    (pushAll ⟨[], 3⟩ [⟨1, 1⟩, ⟨2, 2⟩]).2 = 0 :=
  awake_ring_fifo 3 [⟨1, 1⟩, ⟨2, 2⟩] (by decide)

/-- C4: a repeating timer's next deadline is computed relative to its
original schedule time (the `k`-th deadline is exactly
`schedule + k * period`, for any fire times), so when the dispatch
loop fires the `N`-th repeat within one loop granularity `g` of its
deadline, the cumulative drift over the `N` repeats stays below `g`. -/
theorem repeat_timer_no_drift (s p g N : Nat) (fire : Nat → Nat)
    (h : fire N < timerDeadline s p fire N + g) :
    timerDeadline s p fire N = s + N * p ∧
    (∀ fire', timerDeadline s p fire N = timerDeadline s p fire' N) ∧
    fire N < s + N * p + g := by
  refine ⟨timerDeadline_eq s p fire N, ?_, ?_⟩
  · intro fire'
    rw [timerDeadline_eq, timerDeadline_eq]
  · rw [timerDeadline_eq] at h
    exact h

/-- Witness for C4 at a concrete schedule. -/
theorem repeat_timer_no_drift_witness :
    timerDeadline 5 3 (fun _ => 16) 4 = 5 + 4 * 3 ∧
    (∀ fire', timerDeadline 5 3 (fun _ => 16) 4 = timerDeadline 5 3 fire' 4) ∧
    (fun _ : Nat => 16) 4 < 5 + 4 * 3 + 2 :=
  repeat_timer_no_drift 5 3 2 4 (fun _ => 16) (by decide)

/-- C5: any strictly nested sequence of `push_clip`/`pop_clip` calls
restores the clip stack — in particular the clip region in effect —
to exactly what it was before the first push. -/
theorem clip_stack_discipline (s : ClipStack) (ops : List ClipOp)
    (h : Nested ops) :
    applyOps s ops = s ∧ currentClip (applyOps s ops) = currentClip s := by
  rw [applyOps_nested ops h s]
  exact ⟨rfl, rfl⟩

/-- Witness for C5 on a two-deep nested sequence. -/
theorem clip_stack_discipline_witness :
    applyOps [] [ClipOp.pushOp ⟨0, 0, 10, 10⟩, ClipOp.pushOp ⟨2, 2, 5, 5⟩,
      ClipOp.popOp, ClipOp.popOp] = [] ∧
    currentClip (applyOps [] [ClipOp.pushOp ⟨0, 0, 10, 10⟩,
      ClipOp.pushOp ⟨2, 2, 5, 5⟩, ClipOp.popOp, ClipOp.popOp]) =
      currentClip [] :=
  clip_stack_discipline [] _
    (Nested.scope ⟨0, 0, 10, 10⟩ [ClipOp.pushOp ⟨2, 2, 5, 5⟩, ClipOp.popOp] []
      (Nested.scope ⟨2, 2, 5, 5⟩ [] [] Nested.nil Nested.nil) Nested.nil)

/-- C6: resizing a group to a new width leaves every child consistent
with its per-axis policy: sizes and anchors are unchanged, a
left-anchored child keeps its `x`, a right-anchored child keeps a
constant right margin; concretely, resizing from width 300 to 500
leaves a left-anchored child `A` unchanged and puts a right-anchored
child `B`'s right edge at `500` minus its original right margin. -/
theorem group_resize_policy (oldW newW : Int) (c : Child) (A B : Child)
    (hA : A.anchor = HAnchor.left) (hB : B.anchor = HAnchor.right) :
    (resizeChild oldW newW c).w = c.w ∧
    (resizeChild oldW newW c).anchor = c.anchor ∧
    (c.anchor = HAnchor.left → resizeChild oldW newW c = c) ∧
    (c.anchor = HAnchor.right →
      rightMargin newW (resizeChild oldW newW c) = rightMargin oldW c) ∧
    resizeGroup 300 500 [A, B] =
      [A, { B with x := B.x + 200 }] ∧
    (let B' := resizeChild 300 500 B
     B'.x + B'.w = 500 - rightMargin 300 B) := by
  refine ⟨?_, ?_, ?_, ?_, ?_, ?_⟩
  · cases hc : c.anchor <;> simp [resizeChild, hc]
  · cases hc : c.anchor <;> simp [resizeChild, hc]
  · intro hc; simp [resizeChild, hc]
  · intro hc; simp [resizeChild, hc, rightMargin]; ring
  · simp [resizeGroup, resizeChild, hA, hB]
  · simp only [resizeChild, hB, rightMargin]
    ring

/-- Witness for C6 on the spec's end-to-end example. -/
theorem group_resize_policy_witness :
    (resizeChild 300 500 ⟨10, 50, HAnchor.left⟩).w = 50 ∧
    (resizeChild 300 500 ⟨10, 50, HAnchor.left⟩).anchor = HAnchor.left ∧
    ((⟨10, 50, HAnchor.left⟩ : Child).anchor = HAnchor.left →
      resizeChild 300 500 ⟨10, 50, HAnchor.left⟩ = ⟨10, 50, HAnchor.left⟩) ∧
    ((⟨10, 50, HAnchor.left⟩ : Child).anchor = HAnchor.right →
      rightMargin 500 (resizeChild 300 500 ⟨10, 50, HAnchor.left⟩) =
        rightMargin 300 ⟨10, 50, HAnchor.left⟩) ∧
    resizeGroup 300 500 [⟨10, 50, HAnchor.left⟩, ⟨240, 50, HAnchor.right⟩] =
      [⟨10, 50, HAnchor.left⟩,
       { (⟨240, 50, HAnchor.right⟩ : Child) with x := 240 + 200 }] ∧
    (let B' := resizeChild 300 500 ⟨240, 50, HAnchor.right⟩
     B'.x + B'.w = 500 - rightMargin 300 ⟨240, 50, HAnchor.right⟩) :=
  group_resize_policy 300 500 ⟨10, 50, HAnchor.left⟩
    ⟨10, 50, HAnchor.left⟩ ⟨240, 50, HAnchor.right⟩ rfl rfl

/-- C7: after `Fl_SVG_File_Surface::close()`, the underlying `FILE`
has been closed — by `fclose`, or by the `closef` function supplied at
construction, whose return value `close()` returns — every further
operation on the surface other than destruction fails, and the
destructor processes the `FILE` the same way as `close()`. -/
theorem svg_surface_close_protocol (w h : Int) (closef : Option Int)
    (s : SVGFileSurface) :
    ((SVGFileSurface.close s).1.fileOpen = false) ∧
    ((SVGFileSurface.close (SVGFileSurface.mk' w h closef)).2 =
      match closef with
      | some r => r
      | none => SVGFileSurface.fcloseRet) ∧
    (∀ op, SVGFileSurface.opOk (SVGFileSurface.close s).1 op = false) ∧
    (SVGFileSurface.destroy s = (SVGFileSurface.close s).1) := by
  refine ⟨rfl, ?_, fun op => rfl, rfl⟩
  cases closef <;> rfl

/-- C8: the widget-browser item model is the doubly linked node list:
`item_first` returns the head of the project tree list, `item_next`
and `item_prev` follow the `next`/`prev` pointers irrespective of the
nodes' depth fields, and they yield null past the end, respectively
before the start, of the list. -/
theorem browser_item_model (t : List Node) (i : Nat) (hi : i < t.length) :
    (t ≠ [] → item_first t = some 0) ∧
    (item_first [] = none) ∧
    (item_next t i = if i + 1 < t.length then some (i + 1) else none) ∧
    (item_prev t i = if i = 0 then none else some (i - 1)) ∧
    (∀ f, item_next (relabelLevels f t) i = item_next t i) ∧
    (∀ f, item_prev (relabelLevels f t) i = item_prev t i) ∧
    (i + 1 = t.length → item_next t i = none) ∧
    (item_prev t 0 = none) ∧
    (∀ j, item_next t i = some j → item_prev t j = some i) ∧
    (∀ j, item_prev t i = some j → item_next t j = some i) := by
  refine ⟨?_, rfl, rfl, rfl, ?_, ?_, ?_, rfl, ?_, ?_⟩
  · intro h
    simp [item_first, List.length_eq_zero, h]
  · intro f
    simp [item_next, nodeNext, relabelLevels]
  · intro f
    simp [item_prev, nodePrev, relabelLevels]
  · intro h
    simp [item_next, nodeNext, h]
  · intro j hj
    simp only [item_next, nodeNext] at hj
    split at hj
    · cases hj
      simp [item_prev, nodePrev]
    · cases hj
  · intro j hj
    simp only [item_prev, nodePrev] at hj
    split at hj
    · cases hj
    · cases hj
      simp only [item_next, nodeNext]
      have : i - 1 + 1 = i := by omega
      rw [this]
      simp [hi]

/-- C9: for a non-null output buffer and any input string,
`copy_trunc(p, str, maxl, quote, trunc_lf)` writes a NUL-terminated
string of at most `4*(maxl+1)+1` bytes (`4*(maxl+1)+3` when `quote`
is set), consumes at most `maxl` source characters, and returns a
pointer to the terminating NUL byte it wrote; for a null buffer it
returns null without writing. -/
theorem copy_trunc_safety (str : Option (List Nat)) (maxl : Int) (q t : Bool)
    (hm : 0 ≤ maxl)
    (hstr : ∀ s, str = some s → ∀ b ∈ s, 0 < b ∧ b < 256) :
    copy_trunc true str maxl q t = none ∧
    ∀ out ret, copy_trunc false str maxl q t = some (out, ret) →
      (out.length : Int) ≤ 4 * (maxl + 1) + 1 + (if q then 2 else 0) ∧
      ret + 1 = out.length ∧
      out.getLast? = some 0 ∧
      ∀ s, str = some s → ((copyLoop s 0 maxl t).2.2.2 : Int) ≤ maxl := by
  refine ⟨rfl, ?_⟩
  intro out ret hout
  cases str with
  | none =>
      simp only [copy_trunc, Bool.false_eq_true, if_false, ite_false,
        Option.some.injEq, Prod.mk.injEq] at hout
      obtain ⟨hout1, hout2⟩ := hout
      subst hout1
      refine ⟨?_, ?_, ?_, ?_⟩
      · cases q <;> simp <;> omega
      · cases q <;> simp at hout2 ⊢ <;> omega
      · rw [List.getLast?_concat]
      · intro s hs
        exact absurd hs (by simp)
  | some s =>
      obtain ⟨hb1, hb2⟩ := copyLoop_bounds s 0 maxl t
      have hEll := ellipsisFor_length (copyLoop s 0 maxl t).2.1
      simp only [copy_trunc, Bool.false_eq_true, if_false, ite_false,
        Option.some.injEq, Prod.mk.injEq] at hout
      obtain ⟨hout1, hout2⟩ := hout
      subst hout1
      subst hout2
      refine ⟨?_, ?_, ?_, ?_⟩
      · simp only [List.length_append, List.length_cons, List.length_nil]
        cases q <;>
          simp only [ite_true, ite_false, if_true, if_false, Bool.false_eq_true,
            List.length_cons, List.length_nil, apply_ite List.length] <;>
          split <;>
          omega
      · simp only [List.length_append, List.length_cons, List.length_nil]
        omega
      · simp [List.getLast?_append]
      · intro s' hs'
        cases hs'
        omega

/-- Witness for C9 on the quoted string "ABC" at `maxl = 2`. -/
theorem copy_trunc_safety_witness :
    copy_trunc true (some [65, 66, 67]) 2 true false = none ∧
    ∀ out ret, copy_trunc false (some [65, 66, 67]) 2 true false =
        some (out, ret) →
      (out.length : Int) ≤ 4 * (2 + 1) + 1 + (if true then 2 else 0) ∧
      ret + 1 = out.length ∧
      out.getLast? = some 0 ∧
      ∀ s, (some [65, 66, 67] : Option (List Nat)) = some s →
        ((copyLoop s 0 2 false).2.2.2 : Int) ≤ 2 :=
  copy_trunc_safety (some [65, 66, 67]) 2 true false (by decide)
    (fun s hs => by cases hs; decide)

/-- Witness for C8 on a three-node list. -/
theorem browser_item_model_witness :
    (([⟨0, false, true, true⟩, ⟨1, false, true, false⟩,
       ⟨0, false, true, false⟩] : List Node) ≠ [] →
      item_first [⟨0, false, true, true⟩, ⟨1, false, true, false⟩,
        ⟨0, false, true, false⟩] = some 0) ∧
    (item_first [] = none) ∧
    (item_next [⟨0, false, true, true⟩, ⟨1, false, true, false⟩,
        ⟨0, false, true, false⟩] 1 =
      if 1 + 1 < ([⟨0, false, true, true⟩, ⟨1, false, true, false⟩,
        ⟨0, false, true, false⟩] : List Node).length then some (1 + 1)
      else none) ∧
    (item_prev [⟨0, false, true, true⟩, ⟨1, false, true, false⟩,
        ⟨0, false, true, false⟩] 1 = if 1 = 0 then none else some (1 - 1)) ∧
    (∀ f, item_next (relabelLevels f [⟨0, false, true, true⟩,
        ⟨1, false, true, false⟩, ⟨0, false, true, false⟩]) 1 =
      item_next [⟨0, false, true, true⟩, ⟨1, false, true, false⟩,
        ⟨0, false, true, false⟩] 1) ∧
    (∀ f, item_prev (relabelLevels f [⟨0, false, true, true⟩,
        ⟨1, false, true, false⟩, ⟨0, false, true, false⟩]) 1 =
      item_prev [⟨0, false, true, true⟩, ⟨1, false, true, false⟩,
        ⟨0, false, true, false⟩] 1) ∧
    (1 + 1 = ([⟨0, false, true, true⟩, ⟨1, false, true, false⟩,
        ⟨0, false, true, false⟩] : List Node).length →
      item_next [⟨0, false, true, true⟩, ⟨1, false, true, false⟩,
        ⟨0, false, true, false⟩] 1 = none) ∧
    (item_prev [⟨0, false, true, true⟩, ⟨1, false, true, false⟩,
        ⟨0, false, true, false⟩] 0 = none) ∧
    (∀ j, item_next [⟨0, false, true, true⟩, ⟨1, false, true, false⟩,
        ⟨0, false, true, false⟩] 1 = some j →
      item_prev [⟨0, false, true, true⟩, ⟨1, false, true, false⟩,
        ⟨0, false, true, false⟩] j = some 1) ∧
    (∀ j, item_prev [⟨0, false, true, true⟩, ⟨1, false, true, false⟩,
        ⟨0, false, true, false⟩] 1 = some j →
      item_next [⟨0, false, true, true⟩, ⟨1, false, true, false⟩,
        ⟨0, false, true, false⟩] j = some 1) :=
  browser_item_model [⟨0, false, true, true⟩, ⟨1, false, true, false⟩,
    ⟨0, false, true, false⟩] 1 (by decide)

/-- C10: in `Node_Browser::handle`, releasing the mouse on the fold
triangle of the node at index `i` toggles its `folded_` flag; folding
sets `visible = 0` on every following node of greater level (the span);
unfolding sets `visible = 1` on exactly the span nodes that are not
inside the subtree of a descendant that itself remains folded, while
nodes under such a folded descendant keep their (hidden) visibility;
nodes outside the span are untouched. -/
theorem browser_fold_unfold (t : List Node) (i : Nat) (hi : i < t.length) :
    ((handleRelease t i).getD i dfltNode).folded_
        = !(t.getD i dfltNode).folded_ ∧
    ((t.getD i dfltNode).folded_ = false →
      ∀ j, inSpan t i j →
        ((handleRelease t i).getD j dfltNode).visible = false) ∧
    ((t.getD i dfltNode).folded_ = true →
      ∀ j, inSpan t i j →
        (underFolded t i j →
          ((handleRelease t i).getD j dfltNode).visible
            = (t.getD j dfltNode).visible) ∧
        (¬ underFolded t i j →
          ((handleRelease t i).getD j dfltNode).visible = true)) ∧
    (∀ j, j ≠ i → ¬ inSpan t i j →
      (handleRelease t i).getD j dfltNode = t.getD j dfltNode) := by
  cases hfb : (t.getD i dfltNode).folded_
  case false =>
    have hR : handleRelease t i =
        foldLoop (t.set i { t.getD i dfltNode with folded_ := true })
          (t.getD i dfltNode).level (i + 1) := by
      rw [handleRelease]
      simp only [hi, ite_true, hfb, Bool.not_false, ite_true]
    have hlen₁ : (t.set i { t.getD i dfltNode with folded_ := true }).length
        = t.length := by
      simp [List.length_set]
    have hlev₁ : ∀ m,
        ((t.set i { t.getD i dfltNode with folded_ := true }).getD m
          dfltNode).level = (t.getD m dfltNode).level := by
      intro m
      rw [getD_set]
      split
      · next h => rw [← h.1]
      · rfl
    have hskip₁ : ∀ L q,
        skipLen (t.set i { t.getD i dfltNode with folded_ := true }) L q
          = skipLen t L q := by
      intro L q
      exact skipLen_congr _ t L hlen₁ q (fun m _ => hlev₁ m)
    refine ⟨?_, ?_, ?_, ?_⟩
    · rw [hR, foldLoop_getD, if_neg (by omega), getD_set, if_pos ⟨rfl, hi⟩]
      rfl
    · intro _ j hspan
      have hrange := (inSpan_iff t i j).mp hspan
      rw [hR, foldLoop_getD, if_pos ⟨hrange.1, by rw [hskip₁]; exact hrange.2⟩]
    · intro hfold
      cases hfold
    · intro j hji hnspan
      rw [hR, foldLoop_getD, if_neg ?_, getD_set, if_neg ?_]
      · rintro ⟨h1, _⟩
        exact hji h1.symm
      · intro hc
        exact hnspan ((inSpan_iff t i j).mpr
          ⟨hc.1, by rw [← hskip₁ (t.getD i dfltNode).level (i + 1)]; exact hc.2⟩)
  case true =>
    have hR : handleRelease t i =
        unfoldLoop (t.set i { t.getD i dfltNode with folded_ := false })
          (t.getD i dfltNode).level (i + 1) := by
      rw [handleRelease]
      simp only [hi, ite_true, hfb, Bool.not_true, Bool.false_eq_true,
        ite_false]
    have hlen₁ : (t.set i { t.getD i dfltNode with folded_ := false }).length
        = t.length := by
      simp [List.length_set]
    have hlev₁ : ∀ m,
        ((t.set i { t.getD i dfltNode with folded_ := false }).getD m
          dfltNode).level = (t.getD m dfltNode).level := by
      intro m
      rw [getD_set]
      split
      · next h => rw [← h.1]
      · rfl
    have hne₁ : ∀ m, i + 1 ≤ m →
        (t.set i { t.getD i dfltNode with folded_ := false }).getD m dfltNode
          = t.getD m dfltNode := by
      intro m hm
      rw [getD_set, if_neg]
      rintro ⟨h1, _⟩
      omega
    have hskip₁ : ∀ L q,
        skipLen (t.set i { t.getD i dfltNode with folded_ := false }) L q
          = skipLen t L q := by
      intro L q
      exact skipLen_congr _ t L hlen₁ q (fun m _ => hlev₁ m)
    have hcov₁ : ∀ q m, i + 1 ≤ q →
        (covered (t.set i { t.getD i dfltNode with folded_ := false }) q m
          ↔ covered t q m) := by
      intro q m hq
      refine covered_congr _ t q m ?_
      intro r hr
      rw [hne₁ r (by omega)]
      exact ⟨rfl, rfl, rfl⟩
    have hu := fun j => unfoldLoop_getD
      (t.set i { t.getD i dfltNode with folded_ := false })
      (t.getD i dfltNode).level (i + 1) j
    refine ⟨?_, ?_, ?_, ?_⟩
    · rw [hR, (hu i).1 (by omega), getD_set, if_pos ⟨rfl, hi⟩]
      rfl
    · intro hfold
      cases hfold
    · intro _ j hspan
      have hrange := (inSpan_iff t i j).mp hspan
      constructor
      · intro hUF
        have hcovj : covered t (i + 1) j :=
          (underFolded_iff_covered t i j hspan).mp hUF
        rw [hR, (hu j).2.1 hrange.1 (by rw [hskip₁]; exact hrange.2)
          ((hcov₁ (i + 1) j le_rfl).mpr hcovj), hne₁ j (by omega)]
      · intro hnUF
        rw [hR, (hu j).2.2 hrange.1 (by rw [hskip₁]; exact hrange.2)
          (by
            rw [hcov₁ (i + 1) j le_rfl]
            intro hc
            exact hnUF ((underFolded_iff_covered t i j hspan).mpr hc))]
    · intro j hji hnspan
      rw [hR, (hu j).1
          (by
            intro hc
            exact hnspan ((inSpan_iff t i j).mpr
              ⟨hc.1, by
                rw [← hskip₁ (t.getD i dfltNode).level (i + 1)]
                exact hc.2⟩)),
        getD_set, if_neg]
      rintro ⟨h1, _⟩
      exact hji h1.symm

/-- Witness for C10 on a five-node tree whose root is folded and has a
folded child with its own subtree. -/
theorem browser_fold_unfold_witness :
    ((handleRelease [⟨0, true, true, true⟩, ⟨1, true, false, true⟩,
        ⟨2, false, false, false⟩, ⟨1, false, false, false⟩,
        ⟨0, false, true, false⟩] 0).getD 0 dfltNode).folded_
      = !(([⟨0, true, true, true⟩, ⟨1, true, false, true⟩,
        ⟨2, false, false, false⟩, ⟨1, false, false, false⟩,
        ⟨0, false, true, false⟩] : List Node).getD 0 dfltNode).folded_ ∧
    ((([⟨0, true, true, true⟩, ⟨1, true, false, true⟩,
        ⟨2, false, false, false⟩, ⟨1, false, false, false⟩,
        ⟨0, false, true, false⟩] : List Node).getD 0 dfltNode).folded_ = false →
      ∀ j, inSpan [⟨0, true, true, true⟩, ⟨1, true, false, true⟩,
          ⟨2, false, false, false⟩, ⟨1, false, false, false⟩,
          ⟨0, false, true, false⟩] 0 j →
        ((handleRelease [⟨0, true, true, true⟩, ⟨1, true, false, true⟩,
          ⟨2, false, false, false⟩, ⟨1, false, false, false⟩,
          ⟨0, false, true, false⟩] 0).getD j dfltNode).visible = false) ∧
    ((([⟨0, true, true, true⟩, ⟨1, true, false, true⟩,
        ⟨2, false, false, false⟩, ⟨1, false, false, false⟩,
        ⟨0, false, true, false⟩] : List Node).getD 0 dfltNode).folded_ = true →
      ∀ j, inSpan [⟨0, true, true, true⟩, ⟨1, true, false, true⟩,
          ⟨2, false, false, false⟩, ⟨1, false, false, false⟩,
          ⟨0, false, true, false⟩] 0 j →
        (underFolded [⟨0, true, true, true⟩, ⟨1, true, false, true⟩,
            ⟨2, false, false, false⟩, ⟨1, false, false, false⟩,
            ⟨0, false, true, false⟩] 0 j →
          ((handleRelease [⟨0, true, true, true⟩, ⟨1, true, false, true⟩,
            ⟨2, false, false, false⟩, ⟨1, false, false, false⟩,
            ⟨0, false, true, false⟩] 0).getD j dfltNode).visible
            = (([⟨0, true, true, true⟩, ⟨1, true, false, true⟩,
              ⟨2, false, false, false⟩, ⟨1, false, false, false⟩,
              ⟨0, false, true, false⟩] : List Node).getD j dfltNode).visible) ∧
        (¬ underFolded [⟨0, true, true, true⟩, ⟨1, true, false, true⟩,
            ⟨2, false, false, false⟩, ⟨1, false, false, false⟩,
            ⟨0, false, true, false⟩] 0 j →
          ((handleRelease [⟨0, true, true, true⟩, ⟨1, true, false, true⟩,
            ⟨2, false, false, false⟩, ⟨1, false, false, false⟩,
            ⟨0, false, true, false⟩] 0).getD j dfltNode).visible = true)) ∧
    (∀ j, j ≠ 0 → ¬ inSpan [⟨0, true, true, true⟩, ⟨1, true, false, true⟩,
        ⟨2, false, false, false⟩, ⟨1, false, false, false⟩,
        ⟨0, false, true, false⟩] 0 j →
      (handleRelease [⟨0, true, true, true⟩, ⟨1, true, false, true⟩,
        ⟨2, false, false, false⟩, ⟨1, false, false, false⟩,
        ⟨0, false, true, false⟩] 0).getD j dfltNode
        = ([⟨0, true, true, true⟩, ⟨1, true, false, true⟩,
          ⟨2, false, false, false⟩, ⟨1, false, false, false⟩,
          ⟨0, false, true, false⟩] : List Node).getD j dfltNode) :=
  browser_fold_unfold [⟨0, true, true, true⟩, ⟨1, true, false, true⟩,
    ⟨2, false, false, false⟩, ⟨1, false, false, false⟩,
    ⟨0, false, true, false⟩] 0 (by decide)

end Fltk
